import Mathlib

/-!
Verification of the PikoDB storage engine (a TypeScript embedded key-value
store) against its natural-language specification.

The development shallowly embeds the relevant parts of the source:

* `src/src/interfaces/Dictionary.ts` — the dictionary codec
  (`processDictionary`, `invertMapping`, `transformValue`);
* `src/src/utils/validation.ts` — table-name/key validation;
* the `PikoDB` class — in-memory tables, `write`/`get`/`delete`,
  expiration (`isExpired`), serialization (`serializeTable`) and the
  persistence step (modelled by an explicit success flag and a per-table
  "disk" image, since actual file I/O is outside the embedding).

JavaScript objects and `Map`s are modelled as ordered association lists
(`List (String × _)`), which matches JS insertion-order semantics:
assigning to an existing key keeps its position and replaces the value,
assigning a fresh key appends.  JSON-like values are the inductive
`JsonValue`.  Numbers are modelled as `Int` (no claim depends on float
behaviour).  `undefined`/absent optional arguments are `Option.none`.
-/

namespace Piko

/-- The universal JSON-like structured value manipulated by the codec:
null, boolean, number, string, array, or ordered string-keyed object. -/
inductive JsonValue where
  | null : JsonValue
  | bool (b : Bool) : JsonValue
  | num (n : Int) : JsonValue
  | str (s : String) : JsonValue
  | arr (xs : List JsonValue) : JsonValue
  | obj (fs : List (String × JsonValue)) : JsonValue

/-- A flat string→string renaming mapping (a JS `Record<string, string>`). -/
abbrev Mapping := List (String × String)

/-- Lookup in an ordered association list (JS `obj[key]` / `Map.get`). -/
def assocLookup : List (String × α) → String → Option α
  | [], _ => none
  | (k, v) :: l, key => if k = key then some v else assocLookup l key

/-- Assignment in an ordered association list (JS `obj[key] = v` /
`Map.set`): an existing key keeps its position and gets the new value,
a fresh key is appended at the end. -/
def assocSet : List (String × α) → String → α → List (String × α)
  | [], k, v => [(k, v)]
  | (k', v') :: l, k, v =>
      if k' = k then (k, v) :: l else (k', v') :: assocSet l k v

/-- Deletion from an ordered association list (JS `Map.delete`). -/
def assocDelete (l : List (String × α)) (k : String) : List (String × α) :=
  l.filter (fun p => p.1 ≠ k)

/-- The lookup `mapping[key] || key` from `transformValue`: a missing key and the
empty string (falsy in JS) both fall back to the original key. -/
def jsLookup (m : Mapping) (k : String) : String :=
  match assocLookup m k with
  | some s => if s = "" then k else s
  | none => k

/-- Building a fresh JS object by successive `transformed[newKey] = v`
assignments (the loop body of `transformValue`'s object case). -/
def objAssign (l : List (String × JsonValue)) : List (String × JsonValue) :=
  l.foldl (fun acc p => assocSet acc p.1 p.2) []

mutual

/-- Function `transformValue(value, mapping)` from `Dictionary.ts`: scalars and
null unchanged, arrays mapped elementwise, object keys renamed via
`mapping[key] || key` with values recursively transformed. -/
def transformValue (m : Mapping) : JsonValue → JsonValue
  | .null => .null
  | .bool b => .bool b
  | .num n => .num n
  | .str s => .str s
  | .arr xs => .arr (transformList m xs)
  | .obj fs => .obj (objAssign (transformFields m fs))

/-- Elementwise transformation of an array (`value.map(...)`). -/
def transformList (m : Mapping) : List JsonValue → List JsonValue
  | [] => []
  | x :: xs => transformValue m x :: transformList m xs

/-- Per-entry transformation of an object's fields
(`Object.entries` iteration in `transformValue`). -/
def transformFields (m : Mapping) : List (String × JsonValue) → List (String × JsonValue)
  | [] => []
  | (k, v) :: fs => (jsLookup m k, transformValue m v) :: transformFields m fs

end

/-- Function `invertMapping` from `Dictionary.ts`: swap each key/value pair using
JS object assignment, so two pairs sharing a value collapse
(last-defined wins). -/
def invertMapping (m : Mapping) : Mapping :=
  m.foldl (fun acc p => assocSet acc p.2 p.1) []

/-- A caller-supplied dictionary specification (either side optional). -/
structure Dictionary where
  deflate : Option Mapping
  inflate : Option Mapping

/-- A processed dictionary carrying both directions. -/
structure ProcessedDictionary where
  deflate : Mapping
  inflate : Mapping
deriving DecidableEq

/-- Function `processDictionary` from `Dictionary.ts`: reject a spec supplying
neither or both mappings, otherwise derive the missing side by
inversion.  Thrown errors are modelled as `Except.error`. -/
def processDictionary (d : Dictionary) : Except String ProcessedDictionary :=
  match d.deflate, d.inflate with
  | none, none =>
      .error "Dictionary must provide either deflate or inflate mapping"
  | some _, some _ =>
      .error "Dictionary should provide only one of deflate or inflate (not both)."
  | some df, none => .ok ⟨df, invertMapping df⟩
  | none, some infl => .ok ⟨invertMapping infl, infl⟩

/-! ## Record model and database state (the `PikoDB` class) -/

/-- A stored record (`DatabaseRecord` plus the `dictionaryName` the
`write` path attaches): value, version, write timestamp, optional
expiration instant, optional dictionary name. -/
structure DatabaseRecord where
  value : JsonValue
  version : Nat
  timestamp : Int
  expiration : Option Int
  dictionaryName : Option String

/-- An in-memory table: an ordered map from key to record. -/
abbrev Table := List (String × DatabaseRecord)

/-- The database state: the in-memory table cache (`this.data`), the
dictionary registry (`this.dictionaries`), and the per-table on-disk
image (`disk` holds the parsed content of each table's file; file I/O
itself is outside the embedding). -/
structure DBState where
  data : List (String × Table)
  dictionaries : List (String × ProcessedDictionary)
  disk : List (String × JsonValue)

/-- Reserved filesystem names rejected by `validateTableName`. -/
def reservedNames : List String :=
  ["CON", "PRN", "AUX", "NUL", "COM1", "COM2", "COM3", "COM4", "COM5",
   "COM6", "COM7", "COM8", "COM9", "LPT1", "LPT2", "LPT3", "LPT4",
   "LPT5", "LPT6", "LPT7", "LPT8", "LPT9"]

/-- Character-list prefix test (for the substring check below). -/
def charsLeadWith : List Char → List Char → Bool
  | [], _ => true
  | _ :: _, [] => false
  | a :: l, b :: m => a == b && charsLeadWith l m

/-- JS `s.includes(pat)` as a character-list scan. -/
def charsHaveSub (pat : List Char) : List Char → Bool
  | [] => charsLeadWith pat []
  | b :: m => charsLeadWith pat (b :: m) || charsHaveSub pat m

/-- Function `validateTableName` from `validation.ts`, as a boolean predicate
over the string's characters (`true` = passes, `false` = throws a
ValidationError). -/
def validTableName (t : String) : Bool :=
  let cs := t.toList
  !cs.isEmpty && cs.length ≤ 255 &&
  !(cs.contains '/') && !(cs.contains '\\') &&
  !(charsHaveSub "..".toList cs) &&
  !(match cs with | c :: _ => c == '.' | [] => false) &&
  !(cs.contains (Char.ofNat 0)) &&
  !(reservedNames.contains (String.mk (cs.map Char.toUpper)))

/-- Function `validateKey` from `validation.ts` (non-string / undefined keys are
not representable in the embedding). -/
def validKey (k : String) : Bool :=
  let cs := k.toList
  !cs.isEmpty && cs.length ≤ 1024 && !(cs.contains (Char.ofNat 0))

/-- Function `validateValue` from `validation.ts`: every `JsonValue` is
JSON-serializable, so in the embedding this always passes (functions,
symbols and `undefined` are not representable). -/
def validValue (_ : JsonValue) : Bool := true

/-- Method `PikoDB.isExpired`: a record with `expiration === null` never
expires; otherwise expired exactly when `now > expiration` (strict). -/
def isExpired (now : Int) (r : DatabaseRecord) : Bool :=
  match r.expiration with
  | none => false
  | some e => decide (e < now)

/-- The `x` field written by `serializeTable`: the expiration instant,
or JSON `null` when the record never expires. -/
def encodeExpiration : Option Int → JsonValue
  | some e => .num e
  | none => .null

/-- The compact on-disk form of one record, from `serializeTable`:
metadata is unconditionally renamed to the fixed short field names
`d`/`v`/`t`/`x`, the dictionary name `n` is included only when present
(and truthy), and the value is deflated when the record's dictionary is
registered. -/
def compactRecord (dicts : List (String × ProcessedDictionary))
    (r : DatabaseRecord) : JsonValue :=
  let dn : Option String :=
    match r.dictionaryName with
    | some n => if n = "" then none else some n
    | none => none
  let dval : JsonValue :=
    match dn with
    | some n =>
        match assocLookup dicts n with
        | some d => transformValue d.deflate r.value
        | none => r.value
    | none => r.value
  let base : List (String × JsonValue) :=
    [("d", dval), ("v", .num r.version), ("t", .num r.timestamp),
     ("x", encodeExpiration r.expiration)]
  .obj (match dn with
        | some n => base ++ [("n", .str n)]
        | none => base)

/-- Method `PikoDB.serializeTable`: the whole table as a JSON array of
two-element `[key, compactRecord]` arrays. -/
def serializeTable (dicts : List (String × ProcessedDictionary))
    (table : Table) : JsonValue :=
  .arr (table.map (fun p => .arr [.str p.1, compactRecord dicts p.2]))

/-- Inverse of `encodeExpiration` (reading the `x` field back). -/
def encodeExpirationInv : JsonValue → Option (Option Int)
  | .null => some none
  | .num e => some (some e)
  | _ => none

/-- Decoding of one `[key, compactRecord]` entry by
`PikoDB.deserializeTable`; a malformed entry makes the whole parse
fail (the thrown error is caught by `loadTable`). -/
def decodeEntry (dicts : List (String × ProcessedDictionary)) :
    JsonValue → Option (String × DatabaseRecord)
  | .arr [.str k, .obj fields] =>
      match assocLookup fields "d", assocLookup fields "v",
            assocLookup fields "t", assocLookup fields "x" with
      | some dval, some (.num (.ofNat v)), some (.num t), some x =>
          match encodeExpirationInv x with
          | some exp =>
              let dn : Option String :=
                match assocLookup fields "n" with
                | some (.str n) => if n = "" then none else some n
                | _ => none
              let value : JsonValue :=
                match dn with
                | some n =>
                    match assocLookup dicts n with
                    | some d => transformValue d.inflate dval
                    | none => dval
                | none => dval
              some (k, ⟨value, v, t, exp, dn⟩)
          | none => none
      | _, _, _, _ => none
  | _ => none

/-- Method `PikoDB.deserializeTable` composed with `loadTable`'s corruption
recovery: a file that does not parse as the expected structure yields
the empty table. -/
def deserializeTable (dicts : List (String × ProcessedDictionary))
    (j : JsonValue) : Table :=
  match j with
  | .arr entries =>
      match entries.mapM (decodeEntry dicts) with
      | some l => l
      | none => []
  | _ => []

/-- Method `PikoDB.loadTable`: an absent file yields an empty table, a present
file is deserialized (errors degrade to the empty table). -/
def loadTable (s : DBState) (tableName : String) : DBState :=
  match assocLookup s.disk tableName with
  | none => { s with data := assocSet s.data tableName [] }
  | some j =>
      { s with data := assocSet s.data tableName
                 (deserializeTable s.dictionaries j) }

/-- Method `PikoDB.persistTable`: serialize the in-memory table and atomically
replace its file.  The boolean `persistOk` models whether the file
system operations succeed; on failure the on-disk image is unchanged
(the write never completed the rename) and the failure is signalled to
the caller (`false` = the code path threw). -/
def persistTable (s : DBState) (tableName : String) (persistOk : Bool) :
    Bool × DBState :=
  match assocLookup s.data tableName with
  | none => (true, s)
  | some table =>
      if persistOk then
        (true, { s with disk := assocSet s.disk tableName
                          (serializeTable s.dictionaries table) })
      else (false, s)

/-- The dictionary-name check in `PikoDB.write`:
`dictionaryName && !this.dictionaries.has(dictionaryName)` (an empty
name is falsy and skips the check). -/
def dictMissing (dicts : List (String × ProcessedDictionary))
    (dn : Option String) : Bool :=
  match dn with
  | some n => n ≠ "" && !(assocLookup dicts n).isSome
  | none => false

/-- Result of a `write` call: a thrown ValidationError, a thrown
ConfigError, or a returned boolean. -/
inductive WriteResult where
  | validationError : WriteResult
  | configError : WriteResult
  | ok (success : Bool) : WriteResult
deriving DecidableEq

/-- Result of a `get`/`delete` call: either a thrown ValidationError or
a returned value. -/
inductive OpResult (α : Type) where
  | thrown : OpResult α
  | ok (a : α) : OpResult α
deriving DecidableEq

/-- The in-memory record currently stored for `(tableName, key)`:
what `this.data.get(tableName)?.get(key)` observes. -/
def memRecord (s : DBState) (tableName key : String) :
    Option DatabaseRecord :=
  match assocLookup s.data tableName with
  | some table => assocLookup table key
  | none => none

/-- The record built by the body of `PikoDB.write`: the version is
`(currentRecord?.version || 0) + 1`, a falsy expiration timestamp
(`expirationTimestamp || null`) or dictionary name
(`dictionaryName || undefined`) is coerced to "absent". -/
def writtenRecord (s : DBState) (now : Int) (tableName key : String)
    (value : JsonValue) (expirationTimestamp : Option Int)
    (dictionaryName : Option String) : DatabaseRecord :=
  { value := value
    version :=
      (match memRecord s tableName key with
       | some r0 => r0.version
       | none => 0) + 1
    timestamp := now
    expiration :=
      match expirationTimestamp with
      | some t => if t = 0 then none else some t
      | none => none
    dictionaryName :=
      match dictionaryName with
      | some n => if n = "" then none else some n
      | none => none }

/-- The `try`-block of `PikoDB.write` (after validation and the
dictionary check): ensure the table exists, store the new versioned
record, persist the table; a persistence failure is caught and reported
as `false` without rolling back the in-memory update. -/
def writeCore (s : DBState) (now : Int) (tableName key : String)
    (value : JsonValue) (expirationTimestamp : Option Int)
    (dictionaryName : Option String) (persistOk : Bool) :
    WriteResult × DBState :=
  let table := (assocLookup s.data tableName).getD []
  let record := writtenRecord s now tableName key value
    expirationTimestamp dictionaryName
  let s1 : DBState :=
    { s with data := assocSet s.data tableName (assocSet table key record) }
  let pr := persistTable s1 tableName persistOk
  (.ok pr.1, pr.2)

/-- Method `PikoDB.write`: validate, check the dictionary name, then run the
write body (`writeCore`). -/
def write (s : DBState) (now : Int) (tableName key : String)
    (value : JsonValue) (expirationTimestamp : Option Int)
    (dictionaryName : Option String) (persistOk : Bool) :
    WriteResult × DBState :=
  if !(validTableName tableName && validKey key && validValue value) then
    (.validationError, s)
  else if dictMissing s.dictionaries dictionaryName then
    (.configError, s)
  else
    writeCore s now tableName key value expirationTimestamp dictionaryName
      persistOk

/-- Method `PikoDB.get` with a key: lazily load the table, treat a missing key
as `undefined`, evict an expired record (re-persisting the table) and
answer `undefined`, otherwise return the stored value. -/
def getKey (s : DBState) (now : Int) (tableName key : String)
    (persistOk : Bool) : OpResult (Option JsonValue) × DBState :=
  if !(validTableName tableName && validKey key) then (.thrown, s)
  else
    let s := if (assocLookup s.data tableName).isSome then s
             else loadTable s tableName
    match assocLookup s.data tableName with
    | none => (.ok none, s)
    | some table =>
        match assocLookup table key with
        | none => (.ok none, s)
        | some r =>
            if isExpired now r then
              let s1 : DBState :=
                { s with data := assocSet s.data tableName
                           (assocDelete table key) }
              (.ok none, (persistTable s1 tableName persistOk).2)
            else (.ok (some r.value), s)

/-- Method `PikoDB.delete`: lazily load, answer `false` for an absent key;
for a present record delete it and persist, answering `false` when the
record was already expired (or when persistence failed — the catch
block returns `false`), `true` only for a live record whose persist
succeeded. -/
def deleteKey (s : DBState) (now : Int) (tableName key : String)
    (persistOk : Bool) : OpResult Bool × DBState :=
  if !(validTableName tableName && validKey key) then (.thrown, s)
  else
    let s := if (assocLookup s.data tableName).isSome then s
             else loadTable s tableName
    match assocLookup s.data tableName with
    | none => (.ok false, s)
    | some table =>
        match assocLookup table key with
        | none => (.ok false, s)
        | some r =>
            let s1 : DBState :=
              { s with data := assocSet s.data tableName
                         (assocDelete table key) }
            let pr := persistTable s1 tableName persistOk
            if isExpired now r then (.ok false, pr.2)
            else (.ok pr.1, pr.2)

/-! ## Well-formedness and key-avoidance predicates -/

mutual

/-- A structured value is well formed when every object in it (at any
depth, including inside arrays) has pairwise-distinct keys, as JS
objects always do. -/
def wfValue : JsonValue → Bool
  | .null => true
  | .bool _ => true
  | .num _ => true
  | .str _ => true
  | .arr xs => wfList xs
  | .obj fs => decide ((fs.map Prod.fst).Nodup) && wfFields fs

/-- Well-formedness of every element of an array. -/
def wfList : List JsonValue → Bool
  | [] => true
  | x :: xs => wfValue x && wfList xs

/-- Well-formedness of every field value of an object. -/
def wfFields : List (String × JsonValue) → Bool
  | [] => true
  | p :: fs => wfValue p.2 && wfFields fs

end

mutual

/-- Every object key occurring in the value (at any depth) lies outside
the name list `tg`. -/
def avoids (tg : List String) : JsonValue → Bool
  | .null => true
  | .bool _ => true
  | .num _ => true
  | .str _ => true
  | .arr xs => avoidsList tg xs
  | .obj fs => avoidsFields tg fs

/-- Key avoidance for every element of an array. -/
def avoidsList (tg : List String) : List JsonValue → Bool
  | [] => true
  | x :: xs => avoids tg x && avoidsList tg xs

/-- Key avoidance for an object's fields. -/
def avoidsFields (tg : List String) : List (String × JsonValue) → Bool
  | [] => true
  | p :: fs => decide (p.1 ∉ tg) && avoids tg p.2 && avoidsFields tg fs

end

/-- A supplied renaming mapping is unambiguous: distinct keys (as in
any JS record) and distinct values, so no two long keys collapse onto
one short key. -/
def unambiguous (m : Mapping) : Bool :=
  decide ((m.map Prod.fst).Nodup) && decide ((m.map Prod.snd).Nodup)

/-- An unambiguous mapping without empty strings on either side (the
empty string is falsy in JS and short-circuits `mapping[key] || key`). -/
def okMapping (m : Mapping) : Bool :=
  unambiguous m && m.all (fun p => !(p.1 == "") && !(p.2 == ""))

/-- Structural induction principle for `JsonValue` giving membership
hypotheses for array elements and object field values. -/
theorem JsonValue.inductionOn (P : JsonValue → Prop)
    (hnull : P .null) (hbool : ∀ b, P (.bool b)) (hnum : ∀ n, P (.num n))
    (hstr : ∀ s, P (.str s))
    (harr : ∀ xs, (∀ x, x ∈ xs → P x) → P (.arr xs))
    (hobj : ∀ fs, (∀ p, p ∈ fs → P p.2) → P (.obj fs)) :
    ∀ v, P v := by
  have H : ∀ n (v : JsonValue), sizeOf v ≤ n → P v := by
    intro n
    induction n with
    | zero =>
      intro v hv
      cases v <;> simp_all
    | succ n ih =>
      intro v hv
      match v with
      | .null => exact hnull
      | .bool b => exact hbool b
      | .num m => exact hnum m
      | .str s => exact hstr s
      | .arr xs =>
        refine harr xs (fun x hx => ih x ?_)
        have := List.sizeOf_lt_of_mem hx
        simp at hv
        omega
      | .obj fs =>
        refine hobj fs (fun p hp => ih p.2 ?_)
        have h1 := List.sizeOf_lt_of_mem hp
        have h2 : sizeOf p.2 < sizeOf p := by
          obtain ⟨a, b⟩ := p
          simp
        simp at hv
        omega
  intro v
  exact H (sizeOf v) v (le_refl _)

/-! ## Association-list lemmas -/

theorem assocLookup_eq_none {l : List (String × α)} {k : String} :
    assocLookup l k = none ↔ ∀ p ∈ l, p.1 ≠ k := by
  induction l with
  | nil => simp [assocLookup]
  | cons q l ih =>
    obtain ⟨k', v'⟩ := q
    by_cases h : k' = k <;> simp [assocLookup, h, ih]

theorem assocLookup_eq_some_of_nodup {l : List (String × α)} {k : String}
    {v : α} (hnd : (l.map Prod.fst).Nodup) :
    assocLookup l k = some v ↔ (k, v) ∈ l := by
  induction l with
  | nil => simp [assocLookup]
  | cons q l ih =>
    obtain ⟨k', v'⟩ := q
    simp only [List.map_cons, List.nodup_cons] at hnd
    by_cases h : k' = k
    · subst h
      simp only [assocLookup, if_pos rfl, List.mem_cons]
      constructor
      · rintro h'
        exact .inl (by simpa using h'.symm)
      · rintro (h' | h')
        · simp at h'
          simp [h']
        · exact absurd (List.mem_map_of_mem Prod.fst h') (by simpa using hnd.1)
    · simp only [assocLookup, if_neg h, List.mem_cons, ih hnd.2]
      constructor
      · exact fun h' => .inr h'
      · rintro (h' | h')
        · cases h'; exact absurd rfl h
        · exact h'

theorem assocLookup_set_self (l : List (String × α)) (k : String) (v : α) :
    assocLookup (assocSet l k v) k = some v := by
  induction l with
  | nil => simp [assocSet, assocLookup]
  | cons q l ih =>
    obtain ⟨k', v'⟩ := q
    by_cases h : k' = k <;> simp [assocSet, assocLookup, h, ih]

theorem assocLookup_set_other (l : List (String × α)) {k k' : String}
    (v : α) (h : k ≠ k') :
    assocLookup (assocSet l k v) k' = assocLookup l k' := by
  induction l with
  | nil => simp [assocSet, assocLookup, h]
  | cons q l ih =>
    obtain ⟨k₀, v₀⟩ := q
    by_cases h₀ : k₀ = k
    · subst h₀
      simp [assocSet, assocLookup, h]
    · simp only [assocSet, if_neg h₀]
      by_cases h₁ : k₀ = k' <;> simp [assocLookup, h₁, ih]

theorem assocLookup_delete_self (l : List (String × α)) (k : String) :
    assocLookup (assocDelete l k) k = none := by
  rw [assocLookup_eq_none]
  intro p hp
  simp only [assocDelete, List.mem_filter] at hp
  simpa using hp.2

theorem assocSet_isSome (l : List (String × α)) (k : String) (v : α) :
    (assocLookup (assocSet l k v) k).isSome := by
  simp [assocLookup_set_self]

/-- Setting a key absent from the list appends the new pair. -/
theorem assocSet_append {l : List (String × α)} {k : String}
    (h : ∀ p ∈ l, p.1 ≠ k) (v : α) : assocSet l k v = l ++ [(k, v)] := by
  induction l with
  | nil => simp [assocSet]
  | cons q l ih =>
    obtain ⟨k', v'⟩ := q
    have hk : k' ≠ k := h (k', v') (by simp)
    simp only [assocSet, if_neg hk, List.cons_append, List.cons.injEq,
      true_and]
    exact ih (fun p hp => h p (by simp [hp]))

/-! ## The codec as plain list maps -/

theorem assocSet_foldl {α : Type} (l acc : List (String × α))
    (h : ((acc ++ l).map Prod.fst).Nodup) :
    l.foldl (fun acc p => assocSet acc p.1 p.2) acc = acc ++ l := by
  induction l generalizing acc with
  | nil => simp
  | cons q l ih =>
    obtain ⟨k, v⟩ := q
    have h' : (k :: ((acc ++ l).map Prod.fst)).Nodup := by
      have := h
      simp only [List.map_append, List.map_cons] at this ⊢
      exact (List.nodup_middle).1 this
    have hfresh : ∀ p ∈ acc, p.1 ≠ k := by
      intro p hp heq
      have : k ∈ (acc ++ l).map Prod.fst := by
        simp only [List.map_append, List.mem_append]
        exact .inl (heq ▸ List.mem_map_of_mem Prod.fst hp)
      exact (List.nodup_cons.1 h').1 this
    have hset : assocSet acc k v = acc ++ [(k, v)] := assocSet_append hfresh v
    have hrec : ((acc ++ [(k, v)]) ++ l).map Prod.fst |>.Nodup := by
      have := h
      simp only [List.map_append, List.map_cons] at this ⊢
      simpa [List.append_assoc] using this
    calc ((k, v) :: l).foldl (fun acc p => assocSet acc p.1 p.2) acc
        = l.foldl (fun acc p => assocSet acc p.1 p.2) (acc ++ [(k, v)]) := by
          simp [hset]
      _ = (acc ++ [(k, v)]) ++ l := ih _ hrec
      _ = acc ++ (k, v) :: l := by simp

/-- Assembling an object whose keys are pairwise distinct just yields
the field list back. -/
theorem objAssign_eq_self {l : List (String × JsonValue)}
    (h : (l.map Prod.fst).Nodup) : objAssign l = l := by
  have := assocSet_foldl l [] (by simpa using h)
  simpa [objAssign] using this

/-- Inverting a mapping with pairwise-distinct values just swaps every
pair (no collision collapses anything). -/
theorem invertMapping_eq_swap {m : Mapping}
    (h : (m.map Prod.snd).Nodup) :
    invertMapping m = m.map (fun p => (p.2, p.1)) := by
  have h1 : invertMapping m =
      (m.map (fun p => (p.2, p.1))).foldl
        (fun acc p => assocSet acc p.1 p.2) [] := by
    simp [invertMapping, List.foldl_map]
  rw [h1, assocSet_foldl (m.map (fun p => (p.2, p.1))) []
    (by simpa [List.map_map, Function.comp_def] using h)]
  simp

/-- Membership in the swapped mapping. -/
theorem mem_swap {m : Mapping} {k s : String} :
    (s, k) ∈ m.map (fun p => (p.2, p.1)) ↔ (k, s) ∈ m := by
  constructor
  · intro h
    obtain ⟨p, hp, he⟩ := List.mem_map.1 h
    obtain ⟨a, b⟩ := p
    simp only [Prod.mk.injEq] at he
    obtain ⟨h1, h2⟩ := he
    subst h1; subst h2
    exact hp
  · intro h
    exact List.mem_map.2 ⟨(k, s), h, rfl⟩

/-- Function `processDictionary` with an unambiguous supplied mapping produces a
pair of exactly inverse mappings without empty-string pathologies. -/
theorem processed_exact_inverse {d : Dictionary} {D : ProcessedDictionary}
    (hok : processDictionary d = .ok D)
    (hdf : ∀ m, d.deflate = some m → okMapping m = true)
    (hin : ∀ m, d.inflate = some m → okMapping m = true) :
    (∀ k s, assocLookup D.deflate k = some s ↔
      assocLookup D.inflate s = some k) ∧
    (∀ k s, assocLookup D.deflate k = some s → s ≠ "" → k ≠ "") := by
  match hd : d.deflate, hi : d.inflate with
  | none, none => simp [processDictionary, hd, hi] at hok
  | some _, some _ => simp [processDictionary, hd, hi] at hok
  | some m, none =>
    have hm := hdf m hd
    simp only [okMapping, unambiguous, Bool.and_eq_true, decide_eq_true_eq,
      List.all_eq_true, Bool.not_eq_true', beq_eq_false_iff_ne] at hm
    obtain ⟨⟨hkN, hvN⟩, hE⟩ := hm
    have hD : D = ⟨m, invertMapping m⟩ := by
      simp only [processDictionary, hd, hi, Except.ok.injEq] at hok
      exact hok.symm
    subst hD
    simp only
    rw [invertMapping_eq_swap hvN]
    have hswapN : ((m.map (fun p => (p.2, p.1))).map Prod.fst).Nodup := by
      simpa [List.map_map, Function.comp_def] using hvN
    constructor
    · intro k s
      rw [assocLookup_eq_some_of_nodup hkN,
        assocLookup_eq_some_of_nodup hswapN, mem_swap]
    · intro k s hl _
      have := (assocLookup_eq_some_of_nodup hkN).1 hl
      exact (hE (k, s) this).1
  | none, some m =>
    have hm := hin m hi
    simp only [okMapping, unambiguous, Bool.and_eq_true, decide_eq_true_eq,
      List.all_eq_true, Bool.not_eq_true', beq_eq_false_iff_ne] at hm
    obtain ⟨⟨hkN, hvN⟩, hE⟩ := hm
    have hD : D = ⟨invertMapping m, m⟩ := by
      simp only [processDictionary, hd, hi, Except.ok.injEq] at hok
      exact hok.symm
    subst hD
    simp only
    rw [invertMapping_eq_swap hvN]
    have hswapN : ((m.map (fun p => (p.2, p.1))).map Prod.fst).Nodup := by
      simpa [List.map_map, Function.comp_def] using hvN
    constructor
    · intro k s
      rw [assocLookup_eq_some_of_nodup hswapN,
        assocLookup_eq_some_of_nodup hkN, mem_swap]
    · intro k s hl _
      have := (assocLookup_eq_some_of_nodup hswapN).1 hl
      have hmem : (s, k) ∈ m := mem_swap.1 this
      exact (hE (s, k) hmem).2

theorem transformList_eq_map (m : Mapping) (xs : List JsonValue) :
    transformList m xs = xs.map (transformValue m) := by
  induction xs with
  | nil => simp [transformList]
  | cons x xs ih => simp [transformList, ih]

theorem transformFields_eq_map (m : Mapping) (fs : List (String × JsonValue)) :
    transformFields m fs =
      fs.map (fun p => (jsLookup m p.1, transformValue m p.2)) := by
  induction fs with
  | nil => simp [transformFields]
  | cons p fs ih =>
    obtain ⟨k, v⟩ := p
    simp [transformFields, ih]

theorem wfList_iff {xs : List JsonValue} :
    wfList xs = true ↔ ∀ x ∈ xs, wfValue x = true := by
  induction xs with
  | nil => simp [wfList]
  | cons x xs ih => simp [wfList, ih]

theorem wfFields_iff {fs : List (String × JsonValue)} :
    wfFields fs = true ↔ ∀ p ∈ fs, wfValue p.2 = true := by
  induction fs with
  | nil => simp [wfFields]
  | cons p fs ih => simp [wfFields, ih]

theorem avoidsList_iff {tg : List String} {xs : List JsonValue} :
    avoidsList tg xs = true ↔ ∀ x ∈ xs, avoids tg x = true := by
  induction xs with
  | nil => simp [avoidsList]
  | cons x xs ih => simp [avoidsList, ih]

theorem avoidsFields_iff {tg : List String} {fs : List (String × JsonValue)} :
    avoidsFields tg fs = true ↔
      ∀ p ∈ fs, p.1 ∉ tg ∧ avoids tg p.2 = true := by
  induction fs with
  | nil => simp [avoidsFields]
  | cons p fs ih => simp [avoidsFields, ih, and_assoc]

/-- A key outside the domain of a mapping looks up to `none`. -/
theorem assocLookup_eq_none_of_not_mem {m : Mapping} {k : String}
    (h : k ∉ m.map Prod.fst) : assocLookup m k = none := by
  rw [assocLookup_eq_none]
  intro p hp heq
  exact h (heq ▸ List.mem_map_of_mem Prod.fst hp)

/-- Renaming a key forward and back returns the original key, provided
the two mappings are exact inverses, no deflated short key renames an
empty original key, and the original key is not itself a short key. -/
theorem jsLookup_roundtrip {df infl : Mapping}
    (hinv : ∀ k s, assocLookup df k = some s ↔ assocLookup infl s = some k)
    (hne : ∀ k s, assocLookup df k = some s → s ≠ "" → k ≠ "")
    {k : String} (hk : assocLookup infl k = none) :
    jsLookup infl (jsLookup df k) = k := by
  cases hdf : assocLookup df k with
  | none => simp [jsLookup, hdf, hk]
  | some s =>
    by_cases hs : s = ""
    · subst hs
      simp [jsLookup, hdf, hk]
    · have h1 : assocLookup infl s = some k := (hinv k s).1 hdf
      have h2 : k ≠ "" := hne k s hdf hs
      simp [jsLookup, hdf, hs, h1, h2]

/-- On keys that are not short keys, the deflating rename is injective
when the mappings are exact inverses. -/
theorem jsLookup_inj {df infl : Mapping}
    (hinv : ∀ k s, assocLookup df k = some s ↔ assocLookup infl s = some k)
    {k1 k2 : String}
    (h1 : assocLookup infl k1 = none) (h2 : assocLookup infl k2 = none)
    (heq : jsLookup df k1 = jsLookup df k2) : k1 = k2 := by
  cases hdf1 : assocLookup df k1 with
  | none =>
    cases hdf2 : assocLookup df k2 with
    | none => simpa [jsLookup, hdf1, hdf2] using heq
    | some s2 =>
      by_cases hs2 : s2 = ""
      · subst hs2
        simpa [jsLookup, hdf1, hdf2] using heq
      · have hk1s2 : k1 = s2 := by simpa [jsLookup, hdf1, hdf2, hs2] using heq
        have : assocLookup infl s2 = some k2 := (hinv k2 s2).1 hdf2
        rw [← hk1s2, h1] at this
        cases this
  | some s1 =>
    by_cases hs1 : s1 = ""
    · subst hs1
      cases hdf2 : assocLookup df k2 with
      | none => simpa [jsLookup, hdf1, hdf2] using heq
      | some s2 =>
        by_cases hs2 : s2 = ""
        · subst hs2
          simpa [jsLookup, hdf1, hdf2] using heq
        · have hk1s2 : k1 = s2 := by simpa [jsLookup, hdf1, hdf2, hs2] using heq
          have : assocLookup infl s2 = some k2 := (hinv k2 s2).1 hdf2
          rw [← hk1s2, h1] at this
          cases this
    · cases hdf2 : assocLookup df k2 with
      | none =>
        have hk2s1 : s1 = k2 := by simpa [jsLookup, hdf1, hdf2, hs1] using heq
        have : assocLookup infl s1 = some k1 := (hinv k1 s1).1 hdf1
        rw [hk2s1, h2] at this
        cases this
      | some s2 =>
        by_cases hs2 : s2 = ""
        · subst hs2
          have hk2s1 : s1 = k2 := by simpa [jsLookup, hdf1, hdf2, hs1] using heq
          have : assocLookup infl s1 = some k1 := (hinv k1 s1).1 hdf1
          rw [hk2s1, h2] at this
          cases this
        · have hss : s1 = s2 := by
            simpa [jsLookup, hdf1, hdf2, hs1, hs2] using heq
          have e1 : assocLookup infl s1 = some k1 := (hinv k1 s1).1 hdf1
          have e2 : assocLookup infl s2 = some k2 := (hinv k2 s2).1 hdf2
          rw [hss, e2] at e1
          cases e1
          rfl

/-- Core round-trip: deflating then inflating a well-formed value whose
object keys avoid the short-key domain is the identity, for any pair of
exactly inverse mappings. -/
theorem transform_roundTrip {df infl : Mapping}
    (hinv : ∀ k s, assocLookup df k = some s ↔ assocLookup infl s = some k)
    (hne : ∀ k s, assocLookup df k = some s → s ≠ "" → k ≠ "") :
    ∀ v, wfValue v = true → avoids (infl.map Prod.fst) v = true →
      transformValue infl (transformValue df v) = v := by
  intro v
  induction v using JsonValue.inductionOn with
  | hnull => intro _ _; simp [transformValue]
  | hbool b => intro _ _; simp [transformValue]
  | hnum n => intro _ _; simp [transformValue]
  | hstr s => intro _ _; simp [transformValue]
  | harr xs ih =>
    intro hwf hav
    have hwf' := wfList_iff.1 (by simpa [wfValue] using hwf)
    have hav' := avoidsList_iff.1 (by simpa [avoids] using hav)
    simp only [transformValue, transformList_eq_map, List.map_map]
    congr 1
    refine Eq.trans (List.map_congr_left fun x hx => ?_) (List.map_id xs)
    simp only [Function.comp_apply, id_eq]
    exact ih x hx (hwf' x hx) (hav' x hx)
  | hobj fs ih =>
    intro hwf hav
    have hwf' : (fs.map Prod.fst).Nodup ∧ wfFields fs = true := by
      simpa [wfValue] using hwf
    have hK := hwf'.1
    have hvals := wfFields_iff.1 hwf'.2
    have hav' := avoidsFields_iff.1 (by simpa [avoids] using hav)
    have hnone : ∀ k ∈ fs.map Prod.fst, assocLookup infl k = none := by
      intro k hk
      obtain ⟨p, hp, rfl⟩ := List.mem_map.1 hk
      exact assocLookup_eq_none_of_not_mem (hav' p hp).1
    -- the deflated object: keys renamed, pairwise distinct
    have hkeys1 : ((fs.map fun p =>
        (jsLookup df p.1, transformValue df p.2)).map Prod.fst).Nodup := by
      rw [List.map_map]
      have : ((fs.map Prod.fst).map (jsLookup df)).Nodup := by
        refine List.Nodup.map_on ?_ hK
        intro k1 h1 k2 h2 heq
        exact jsLookup_inj hinv (hnone k1 h1) (hnone k2 h2) heq
      simpa [Function.comp_def, List.map_map] using this
    have step1 : transformValue df (.obj fs) =
        .obj (fs.map fun p => (jsLookup df p.1, transformValue df p.2)) := by
      simp only [transformValue, transformFields_eq_map]
      rw [objAssign_eq_self hkeys1]
    -- inflating maps every pair back to itself
    have step2 : (fs.map fun p => (jsLookup df p.1, transformValue df p.2)).map
        (fun p => (jsLookup infl p.1, transformValue infl p.2)) = fs := by
      rw [List.map_map]
      have : ∀ p ∈ fs, ((fun p => (jsLookup infl p.1, transformValue infl p.2)) ∘
          (fun p => (jsLookup df p.1, transformValue df p.2))) p = p := by
        intro p hp
        have hk : assocLookup infl p.1 = none :=
          assocLookup_eq_none_of_not_mem (hav' p hp).1
        simp only [Function.comp_apply]
        rw [jsLookup_roundtrip hinv hne hk, ih p hp (hvals p hp) (hav' p hp).2]
      rw [List.map_congr_left this]
      simp
    rw [step1]
    simp only [transformValue, transformFields_eq_map]
    rw [step2, objAssign_eq_self hK]

/-! ## Claim C1 — dictionary round-trip -/

/-- C1 (amended): for a processed dictionary built from a spec that
supplies exactly one mapping which is unambiguous (no two pairs share a
value) and free of empty-string keys and values, and for every
well-formed structured value whose object keys (at any depth, including
inside arrays) avoid the dictionary's short keys,
`transformValue (transformValue V D.deflate) D.inflate` equals `V`. -/
theorem C1_roundtrip (d : Dictionary) (D : ProcessedDictionary)
    (hok : processDictionary d = .ok D)
    (hdf : ∀ m, d.deflate = some m → okMapping m = true)
    (hin : ∀ m, d.inflate = some m → okMapping m = true)
    (V : JsonValue) (hwf : wfValue V = true)
    (hav : avoids (D.inflate.map Prod.fst) V = true) :
    transformValue D.inflate (transformValue D.deflate V) = V := by
  obtain ⟨hinv, hne⟩ := processed_exact_inverse hok hdf hin
  exact transform_roundTrip hinv hne V hwf hav

/-- C1 fails as stated when the supplied deflate mapping is not
injective: with `deflate = {a: "s", b: "s"}` the derived inflate is
`{s: "b"}` (last-defined wins), and the value `{a: 1}` — whose keys
avoid the short key `s` — deflates to `{s: 1}` and inflates back to
`{b: 1} ≠ {a: 1}`. -/
theorem C1_claim_counterexample :
    processDictionary ⟨some [("a", "s"), ("b", "s")], none⟩ =
      .ok ⟨[("a", "s"), ("b", "s")], [("s", "b")]⟩ ∧
    wfValue (.obj [("a", .num 1)]) = true ∧
    avoids (([("s", "b")] : Mapping).map Prod.fst) (.obj [("a", .num 1)]) = true ∧
    transformValue [("s", "b")]
        (transformValue [("a", "s"), ("b", "s")] (.obj [("a", .num 1)])) ≠
      .obj [("a", .num 1)] := by
  refine ⟨rfl, ?_, ?_, ?_⟩
  · simp [wfValue, wfFields]
  · simp [avoids, avoidsFields]
  · simp [transformValue, transformFields, objAssign, jsLookup,
      assocLookup, assocSet]

/-- Concrete instance of `C1_roundtrip`: the sensor dictionary of the
README round-trips a nested value with an array of objects. -/
theorem C1_roundtrip_witness :
    processDictionary ⟨some [("sensor", "s"), ("metadata", "m")], none⟩ =
      .ok ⟨[("sensor", "s"), ("metadata", "m")],
           [("s", "sensor"), ("m", "metadata")]⟩ ∧
    okMapping [("sensor", "s"), ("metadata", "m")] = true ∧
    wfValue (.obj [("sensor", .str "DHT22"),
      ("metadata", .arr [.obj [("sensor", .num 1)], .null])]) = true ∧
    avoids (([("s", "sensor"), ("m", "metadata")] : Mapping).map Prod.fst)
      (.obj [("sensor", .str "DHT22"),
        ("metadata", .arr [.obj [("sensor", .num 1)], .null])]) = true ∧
    transformValue [("s", "sensor"), ("m", "metadata")]
        (transformValue [("sensor", "s"), ("metadata", "m")]
          (.obj [("sensor", .str "DHT22"),
            ("metadata", .arr [.obj [("sensor", .num 1)], .null])])) =
      .obj [("sensor", .str "DHT22"),
        ("metadata", .arr [.obj [("sensor", .num 1)], .null])] := by
  refine ⟨rfl, by decide, ?_, ?_, ?_⟩
  · simp [wfValue, wfFields, wfList]
  · simp [avoids, avoidsFields, avoidsList]
  · exact C1_roundtrip ⟨some [("sensor", "s"), ("metadata", "m")], none⟩
      ⟨[("sensor", "s"), ("metadata", "m")],
       [("s", "sensor"), ("m", "metadata")]⟩
      rfl
      (fun m hm => by cases hm; decide)
      (fun m hm => by cases hm)
      _
      (by simp [wfValue, wfFields, wfList])
      (by simp [avoids, avoidsFields, avoidsList])

/-! ## Claim C4 — deflate and inflate as set-inverses -/

/-- C4 (amended): for a dictionary spec supplying exactly one
unambiguous mapping (no two pairs share a value), the processed deflate
and inflate are exact set-inverses: `(k, v)` is a pair of deflate iff
`(v, k)` is a pair of inflate. -/
theorem C4_set_inverse (d : Dictionary) (D : ProcessedDictionary)
    (hok : processDictionary d = .ok D)
    (hdf : ∀ m, d.deflate = some m → unambiguous m = true)
    (hin : ∀ m, d.inflate = some m → unambiguous m = true) :
    ∀ k v, (k, v) ∈ D.deflate ↔ (v, k) ∈ D.inflate := by
  match hd : d.deflate, hi : d.inflate with
  | none, none => simp [processDictionary, hd, hi] at hok
  | some _, some _ => simp [processDictionary, hd, hi] at hok
  | some m, none =>
    have hm := hdf m hd
    simp only [unambiguous, Bool.and_eq_true, decide_eq_true_eq] at hm
    have hD : D = ⟨m, invertMapping m⟩ := by
      simp only [processDictionary, hd, hi, Except.ok.injEq] at hok
      exact hok.symm
    subst hD
    intro k v
    simp only
    rw [invertMapping_eq_swap hm.2]
    exact mem_swap.symm
  | none, some m =>
    have hm := hin m hi
    simp only [unambiguous, Bool.and_eq_true, decide_eq_true_eq] at hm
    have hD : D = ⟨invertMapping m, m⟩ := by
      simp only [processDictionary, hd, hi, Except.ok.injEq] at hok
      exact hok.symm
    subst hD
    intro k v
    simp only
    rw [invertMapping_eq_swap hm.2]
    exact mem_swap

/-- C4 fails as stated when the supplied mapping is ambiguous: with
`deflate = {a: "s", b: "s"}` (accepted by `processDictionary`), the
pair `(a, s)` is in deflate but `(s, a)` is not in the derived inflate
`{s: "b"}` — derivation collisions are last-defined-wins. -/
theorem C4_claim_counterexample :
    processDictionary ⟨some [("a", "s"), ("b", "s")], none⟩ =
      .ok ⟨[("a", "s"), ("b", "s")], [("s", "b")]⟩ ∧
    ("a", "s") ∈ ([("a", "s"), ("b", "s")] : Mapping) ∧
    ("s", "a") ∉ ([("s", "b")] : Mapping) := by
  exact ⟨rfl, by simp, by simp⟩

/-- Concrete instance of `C4_set_inverse` for the sensor dictionary. -/
theorem C4_set_inverse_witness :
    unambiguous [("sensor", "s")] = true ∧
    processDictionary ⟨some [("sensor", "s")], none⟩ =
      .ok ⟨[("sensor", "s")], [("s", "sensor")]⟩ ∧
    (("sensor", "s") ∈ ([("sensor", "s")] : Mapping) ↔
      ("s", "sensor") ∈ ([("s", "sensor")] : Mapping)) :=
  ⟨by decide, rfl,
    C4_set_inverse ⟨some [("sensor", "s")], none⟩
      ⟨[("sensor", "s")], [("s", "sensor")]⟩ rfl
      (fun m hm => by cases hm; decide)
      (fun m hm => by cases hm)
      "sensor" "s"⟩

/-! ## Claim C5 — the shape of `transformValue` -/

/-- The key-renaming rule exactly as claim C5 states it: the renamed
key `mapping[k]` is used whenever `k` is present in the mapping, the
original key is kept otherwise. -/
def claimedKeyRename (m : Mapping) (k : String) : String :=
  match assocLookup m k with
  | some s => s
  | none => k

/-- The key-renaming rule as amended: the renamed key is used whenever
`k` is present in the mapping with a nonempty short key (the empty
string is falsy in JS, so `mapping[key] || key` keeps the original key
for it), the original key is kept otherwise. -/
def amendedKeyRename (m : Mapping) (k : String) : String :=
  match assocLookup m k with
  | some s => if s = "" then k else s
  | none => k

/-- The amended rename rule is exactly the code's `mapping[key] || key`. -/
theorem amendedKeyRename_eq_jsLookup : @amendedKeyRename = @jsLookup := rfl

/-- C5 fails as stated for a mapping entry whose short key is the empty
string: `"a"` is present in the mapping `{a: ""}`, so the claim demands
the renamed key `""`, but the code keeps the original key `"a"`. -/
theorem C5_claim_counterexample :
    claimedKeyRename [("a", "")] "a" = "" ∧
    transformValue [("a", "")] (.obj [("a", .null)]) ≠
      .obj (([("a", JsonValue.null)]).map (fun p =>
        (claimedKeyRename [("a", "")] p.1,
         transformValue [("a", "")] p.2))) := by
  refine ⟨rfl, ?_⟩
  simp [transformValue, transformFields, objAssign, jsLookup,
    claimedKeyRename, assocLookup, assocSet]

/-- C5 (amended): `transformValue` returns scalars and null unchanged;
arrays are mapped elementwise, preserving order and array-ness; for an
object, each own key is renamed to `mapping[k]` whenever `k` is present
in the mapping with a nonempty short key and kept otherwise, its value
recursively transformed, the result assembled by JS object assignment
in field order. -/
theorem C5_transform_shape (m : Mapping) :
    transformValue m .null = .null ∧
    (∀ b, transformValue m (.bool b) = .bool b) ∧
    (∀ n, transformValue m (.num n) = .num n) ∧
    (∀ s, transformValue m (.str s) = .str s) ∧
    (∀ xs, transformValue m (.arr xs) = .arr (xs.map (transformValue m))) ∧
    (∀ fs, transformValue m (.obj fs) =
      .obj (objAssign (fs.map (fun p =>
        (amendedKeyRename m p.1, transformValue m p.2))))) := by
  refine ⟨by simp [transformValue], fun b => by simp [transformValue],
    fun n => by simp [transformValue], fun s => by simp [transformValue],
    fun xs => ?_, fun fs => ?_⟩
  · simp [transformValue, transformList_eq_map]
  · simp [transformValue, transformFields_eq_map,
      amendedKeyRename_eq_jsLookup]

/-! ## Operation-level lemmas -/

theorem persistTable_data (s : DBState) (tn : String) (pk : Bool) :
    (persistTable s tn pk).2.data = s.data := by
  unfold persistTable
  cases assocLookup s.data tn <;> [skip; cases pk] <;> simp

theorem persistTable_dictionaries (s : DBState) (tn : String) (pk : Bool) :
    (persistTable s tn pk).2.dictionaries = s.dictionaries := by
  unfold persistTable
  cases assocLookup s.data tn <;> [skip; cases pk] <;> simp

theorem loadTable_dictionaries (s : DBState) (tn : String) :
    (loadTable s tn).dictionaries = s.dictionaries := by
  unfold loadTable
  cases assocLookup s.disk tn <;> simp

/-- A validated `write` whose dictionary check passes runs the body. -/
theorem write_eq_core {s : DBState} {now : Int} {tn k : String}
    {v : JsonValue} {e : Option Int} {dn : Option String} {pk : Bool}
    (hv : validTableName tn = true) (hk : validKey k = true)
    (hd : dictMissing s.dictionaries dn = false) :
    write s now tn k v e dn pk = writeCore s now tn k v e dn pk := by
  unfold write
  simp [hv, hk, validValue, hd]

/-- The full effect of a validated `write` whose dictionary check
passes: it reports the persistence outcome, leaves the dictionary
registry alone, stores exactly the written record for the key, and on
persistence failure leaves the disk image untouched. -/
theorem write_effect (s : DBState) (now : Int) (tn k : String)
    (v : JsonValue) (e : Option Int) (dn : Option String) (pk : Bool)
    (hv : validTableName tn = true) (hk : validKey k = true)
    (hd : dictMissing s.dictionaries dn = false) :
    (write s now tn k v e dn pk).1 = .ok pk ∧
    (write s now tn k v e dn pk).2.dictionaries = s.dictionaries ∧
    memRecord (write s now tn k v e dn pk).2 tn k =
      some (writtenRecord s now tn k v e dn) ∧
    (pk = false → (write s now tn k v e dn pk).2.disk = s.disk) := by
  rw [write_eq_core hv hk hd]
  unfold writeCore
  set record := writtenRecord s now tn k v e dn with hrec
  set table := (assocLookup s.data tn).getD [] with htable
  set s1 : DBState :=
    { s with data := assocSet s.data tn (assocSet table k record) } with hs1
  have hlook : assocLookup s1.data tn = some (assocSet table k record) := by
    rw [hs1]
    exact assocLookup_set_self _ _ _
  refine ⟨?_, ?_, ?_, ?_⟩
  · simp only [persistTable, hlook]
    cases pk <;> simp
  · simp only [persistTable, hlook]
    cases pk <;> simp [hs1]
  · unfold memRecord
    rw [persistTable_data, hlook]
    exact assocLookup_set_self _ _ _
  · intro hpk
    subst hpk
    simp only [persistTable, hlook]
    simp

/-- After a validated `delete`, the key is absent in memory, whatever
prior state the call started from, and the registry is untouched. -/
theorem deleteKey_effect (s : DBState) (now : Int) (tn k : String)
    (pk : Bool) (hv : validTableName tn = true) (hk : validKey k = true) :
    memRecord (deleteKey s now tn k pk).2 tn k = none ∧
    (deleteKey s now tn k pk).2.dictionaries = s.dictionaries := by
  have hguard : (validTableName tn && validKey k) = true := by simp [hv, hk]
  unfold deleteKey
  rw [hguard]
  simp only [Bool.not_true, Bool.false_eq_true, if_false]
  set s' : DBState :=
    (if (assocLookup s.data tn).isSome then s else loadTable s tn) with hs'
  have hdict' : s'.dictionaries = s.dictionaries := by
    rw [hs']
    by_cases h : (assocLookup s.data tn).isSome <;>
      simp [h, loadTable_dictionaries]
  cases htab : assocLookup s'.data tn with
  | none => simp [memRecord, htab, hdict']
  | some table =>
    cases hrec : assocLookup table k with
    | none => simp [memRecord, htab, hrec, hdict']
    | some r =>
      simp only [hrec]
      set s1 : DBState :=
        { s' with data := assocSet s'.data tn (assocDelete table k) } with hs1
      have h1 : memRecord (persistTable s1 tn pk).2 tn k = none := by
        unfold memRecord
        rw [persistTable_data, hs1]
        simp [assocLookup_set_self, assocLookup_delete_self]
      have h2 : (persistTable s1 tn pk).2.dictionaries = s.dictionaries := by
        rw [persistTable_dictionaries, hs1]
        exact hdict'
      cases hex : isExpired now r <;> simp [h1, h2]

/-! ## Claim C2 — version monotonicity -/

/-- The per-call arguments of one `write` in a sequence of writes to a
fixed table and key. -/
structure WriteArgs where
  now : Int
  value : JsonValue
  expiration : Option Int
  dictionaryName : Option String

/-- A sequence of `write` calls to a fixed `(tableName, key)`, each
with a successful persist. -/
def writeSeq (s : DBState) (tableName key : String) :
    List WriteArgs → DBState
  | [] => s
  | a :: l =>
      writeSeq (write s a.now tableName key a.value a.expiration
        a.dictionaryName true).2 tableName key l

theorem writeSeq_version {tn k : String}
    (hv : validTableName tn = true) (hk : validKey k = true) :
    ∀ (l : List WriteArgs) (s : DBState) (n : Nat), l ≠ [] →
      (∀ a ∈ l, dictMissing s.dictionaries a.dictionaryName = false) →
      (match memRecord s tn k with
       | some r => r.version = n
       | none => n = 0) →
      ∃ r, memRecord (writeSeq s tn k l) tn k = some r ∧
        r.version = n + l.length := by
  intro l
  induction l with
  | nil => intro s n h; exact absurd rfl h
  | cons a l ih =>
    intro s n _ hdicts hstart
    obtain ⟨-, h2, h3, -⟩ := write_effect s a.now tn k a.value
      a.expiration a.dictionaryName true hv hk (hdicts a (by simp))
    have hver : (writtenRecord s a.now tn k a.value a.expiration
        a.dictionaryName).version = n + 1 := by
      unfold writtenRecord
      cases hm : memRecord s tn k with
      | some r =>
        rw [hm] at hstart
        simp [hstart]
      | none =>
        rw [hm] at hstart
        simp [hstart]
    by_cases hl : l = []
    · subst hl
      exact ⟨_, h3, by simp [hver]⟩
    · have hd' : ∀ a' ∈ l, dictMissing
          (write s a.now tn k a.value a.expiration a.dictionaryName
            true).2.dictionaries a'.dictionaryName = false := by
        intro a' ha'
        rw [h2]
        exact hdicts a' (by simp [ha'])
      have hstart' : (match memRecord
          (write s a.now tn k a.value a.expiration a.dictionaryName
            true).2 tn k with
          | some r => r.version = n + 1
          | none => n + 1 = 0) := by
        rw [h3]
        exact hver
      obtain ⟨r, hr1, hr2⟩ := ih _ (n + 1) hl hd' hstart'
      refine ⟨r, hr1, ?_⟩
      simp only [List.length_cons]
      omega

/-- C2: starting from a state where `(table, key)` holds no record, N
sequential successful writes to it with no intervening delete leave a
record of version N; and a write performed immediately after a delete
of that key (whatever the delete returned) stores a record with
version 1 — no version memory survives deletion. -/
theorem C2_version_monotonicity (tn k : String)
    (hv : validTableName tn = true) (hk : validKey k = true) :
    (∀ (s : DBState) (l : List WriteArgs), l ≠ [] →
      memRecord s tn k = none →
      (∀ a ∈ l, dictMissing s.dictionaries a.dictionaryName = false) →
      ∃ r, memRecord (writeSeq s tn k l) tn k = some r ∧
        r.version = l.length) ∧
    (∀ (s : DBState) (now : Int) (pk : Bool) (a : WriteArgs) (pk2 : Bool),
      dictMissing s.dictionaries a.dictionaryName = false →
      ∃ r, memRecord (write (deleteKey s now tn k pk).2 a.now tn k
          a.value a.expiration a.dictionaryName pk2).2 tn k = some r ∧
        r.version = 1) := by
  constructor
  · intro s l hl h0 hdicts
    have := writeSeq_version hv hk l s 0 hl hdicts (by rw [h0])
    simpa using this
  · intro s now pk a pk2 hdict
    obtain ⟨hm, hdel⟩ := deleteKey_effect s now tn k pk hv hk
    obtain ⟨-, -, h3, -⟩ := write_effect (deleteKey s now tn k pk).2
      a.now tn k a.value a.expiration a.dictionaryName pk2 hv hk
      (by rw [hdel]; exact hdict)
    refine ⟨_, h3, ?_⟩
    unfold writtenRecord
    rw [hm]

/-! ## Claim C7 — write with an unknown dictionary name -/

/-- C7 fails as stated for the unregistered dictionary name `""`: the
source guard `if (dictionaryName && !this.dictionaries.has(...))` skips
the check for the falsy empty string, so the write succeeds, stores a
record (with no dictionary attached) and persists — no ConfigError and
full mutation. -/
theorem C7_claim_counterexample :
    assocLookup (⟨[], [], []⟩ : DBState).dictionaries "" = none ∧
    (write ⟨[], [], []⟩ 0 "users" "u1" .null none (some "") true).1 =
      .ok true ∧
    memRecord (write ⟨[], [], []⟩ 0 "users" "u1" .null none (some "")
        true).2 "users" "u1" =
      some ⟨.null, 1, 0, none, none⟩ :=
  ⟨rfl, rfl, rfl⟩

/-- C7 (amended): a validated `write` supplying a nonempty dictionary
name that is not
registered fails with a ConfigError thrown before any state mutation:
the returned state is exactly the state before the call (no table
created, no record stored, no persist performed). -/
theorem C7_unknown_dictionary (s : DBState) (now : Int) (tn k : String)
    (v : JsonValue) (e : Option Int) (n : String) (pk : Bool)
    (hv : validTableName tn = true) (hk : validKey k = true)
    (hn : n ≠ "") (hmiss : assocLookup s.dictionaries n = none) :
    write s now tn k v e (some n) pk = (.configError, s) := by
  have hd : dictMissing s.dictionaries (some n) = true := by
    simp [dictMissing, hn, hmiss]
  simp [write, hv, hk, validValue, hd]

/-- Concrete instance of `C7_unknown_dictionary` on an empty state. -/
theorem C7_unknown_dictionary_witness :
    validTableName "users" = true ∧
    write ⟨[], [], []⟩ 0 "users" "u1" .null none (some "nope") true =
      (.configError, ⟨[], [], []⟩) :=
  ⟨by decide,
    C7_unknown_dictionary ⟨[], [], []⟩ 0 "users" "u1" .null none "nope"
      true (by decide) (by decide) (by decide) rfl⟩

/-! ## Claim C3 — expiration boundary -/

/-- C3: a stored record with expiration instant T is still returned by
`get` at any `now ≤ T` (including exactly T, the comparison being
strict), with the state untouched; at any `now > T`, `get` returns
"not found", evicts the entry from the in-memory table, and re-persists
the shrunken table to disk. -/
theorem C3_expiration_boundary (s : DBState) (now T : Int)
    (tn k : String) (table : Table) (r : DatabaseRecord) (pk : Bool)
    (hv : validTableName tn = true) (hk : validKey k = true)
    (ht : assocLookup s.data tn = some table)
    (hr : assocLookup table k = some r) (he : r.expiration = some T) :
    (now ≤ T → getKey s now tn k pk = (.ok (some r.value), s)) ∧
    (T < now →
      (getKey s now tn k true).1 = .ok none ∧
      memRecord (getKey s now tn k true).2 tn k = none ∧
      assocLookup (getKey s now tn k true).2.disk tn =
        some (serializeTable s.dictionaries (assocDelete table k))) := by
  have hguard : (validTableName tn && validKey k) = true := by
    simp [hv, hk]
  have hsome : (assocLookup s.data tn).isSome = true := by simp [ht]
  have hlook1 : assocLookup (assocSet s.data tn (assocDelete table k)) tn
      = some (assocDelete table k) := assocLookup_set_self _ _ _
  constructor
  · intro hle
    have hexp : isExpired now r = false := by
      simp only [isExpired, he, decide_eq_false_iff_not]
      omega
    simp [getKey, hguard, hsome, ht, hr, hexp]
  · intro hlt
    have hexp : isExpired now r = true := by
      simp only [isExpired, he, decide_eq_true_eq]
      omega
    have hstate : getKey s now tn k true =
        (.ok none, (persistTable
          { s with data := assocSet s.data tn (assocDelete table k) }
          tn true).2) := by
      simp [getKey, hguard, hsome, ht, hr, hexp]
    refine ⟨by rw [hstate], ?_, ?_⟩
    · rw [hstate]
      unfold memRecord
      rw [persistTable_data]
      simp [hlook1, assocLookup_delete_self]
    · rw [hstate]
      simp only [persistTable, hlook1]
      simp [assocLookup_set_self]

/-! ## Claim C8 — delete of an already-expired key -/

/-- C8: deleting a key whose stored record is already expired returns
"not found" (`false`) while still purging the stale entry from memory
and re-persisting the table; and `delete` answers `true` only when the
record it removed was live (not expired). -/
theorem C8_delete_semantics (s : DBState) (now : Int) (tn k : String)
    (table : Table) (r : DatabaseRecord)
    (hv : validTableName tn = true) (hk : validKey k = true)
    (ht : assocLookup s.data tn = some table)
    (hr : assocLookup table k = some r) :
    (isExpired now r = true →
      (deleteKey s now tn k true).1 = .ok false ∧
      memRecord (deleteKey s now tn k true).2 tn k = none ∧
      assocLookup (deleteKey s now tn k true).2.disk tn =
        some (serializeTable s.dictionaries (assocDelete table k))) ∧
    (∀ pk, (deleteKey s now tn k pk).1 = .ok true →
      isExpired now r = false) := by
  have hguard : (validTableName tn && validKey k) = true := by
    simp [hv, hk]
  have hsome : (assocLookup s.data tn).isSome = true := by simp [ht]
  have hlook1 : assocLookup (assocSet s.data tn (assocDelete table k)) tn
      = some (assocDelete table k) := assocLookup_set_self _ _ _
  constructor
  · intro hexp
    have hstate : deleteKey s now tn k true =
        (.ok false, (persistTable
          { s with data := assocSet s.data tn (assocDelete table k) }
          tn true).2) := by
      simp [deleteKey, hguard, hsome, ht, hr, hexp]
    refine ⟨by rw [hstate], ?_, ?_⟩
    · rw [hstate]
      unfold memRecord
      rw [persistTable_data]
      simp [hlook1, assocLookup_delete_self]
    · rw [hstate]
      simp only [persistTable, hlook1]
      simp [assocLookup_set_self]
  · intro pk hret
    cases hexp : isExpired now r with
    | false => rfl
    | true =>
      have : (deleteKey s now tn k pk).1 = .ok false := by
        simp [deleteKey, hguard, hsome, ht, hr, hexp]
      rw [this] at hret
      simp at hret

/-! ## Claim C9 — a zero expiration timestamp means "never expires" -/

/-- C9: a validated `write` with expiration timestamp exactly 0 stores
a record whose expiration is null (the falsy 0 is coerced by
`expirationTimestamp || null`), so the record is never expired and a
subsequent `get` at any instant returns the value without evicting
anything. -/
theorem C9_zero_expiration (s : DBState) (now : Int) (tn k : String)
    (v : JsonValue) (pk : Bool)
    (hv : validTableName tn = true) (hk : validKey k = true) :
    ∃ r, memRecord (write s now tn k v (some 0) none pk).2 tn k = some r ∧
      r.expiration = none ∧ r.value = v ∧
      (∀ now2, isExpired now2 r = false) ∧
      (∀ now2 pk2,
        getKey (write s now tn k v (some 0) none pk).2 now2 tn k pk2 =
          (.ok (some v), (write s now tn k v (some 0) none pk).2)) := by
  have hd : dictMissing s.dictionaries none = false := rfl
  obtain ⟨-, -, h3, -⟩ := write_effect s now tn k v (some 0) none pk
    hv hk hd
  set wr := writtenRecord s now tn k v (some 0) none with hwr
  have hexp0 : wr.expiration = none := by simp [hwr, writtenRecord]
  have hval : wr.value = v := by simp [hwr, writtenRecord]
  refine ⟨wr, h3, hexp0, hval, ?_, ?_⟩
  · intro now2
    simp [isExpired, hexp0]
  · intro now2 pk2
    have hguard : (validTableName tn && validKey k) = true := by
      simp [hv, hk]
    have hdata : (write s now tn k v (some 0) none pk).2.data =
        assocSet s.data tn
          (assocSet ((assocLookup s.data tn).getD []) k wr) := by
      rw [write_eq_core hv hk hd]
      unfold writeCore
      simp only [persistTable_data]
    have hlook : assocLookup (write s now tn k v (some 0) none pk).2.data
        tn = some (assocSet ((assocLookup s.data tn).getD []) k wr) := by
      rw [hdata]
      exact assocLookup_set_self _ _ _
    have hlook2 : assocLookup
        (assocSet ((assocLookup s.data tn).getD []) k wr) k = some wr :=
      assocLookup_set_self _ _ _
    have hnexp : isExpired now2 wr = false := by simp [isExpired, hexp0]
    simp [getKey, hguard, hlook, hlook2, hnexp, hval]

/-! ## Claim C10 — persistence failure does not roll back memory -/

/-- C10: when the persist step fails during a validated `write`, the
call returns `false`, the disk image is untouched, yet the in-memory
table holds the new record with the incremented version; a subsequent
successful write to the same key keeps incrementing from that
in-memory version. -/
theorem C10_persist_failure (s : DBState) (now now2 : Int)
    (tn k : String) (v v2 : JsonValue) (e e2 : Option Int)
    (dn dn2 : Option String) (n0 : Nat)
    (hv : validTableName tn = true) (hk : validKey k = true)
    (hd : dictMissing s.dictionaries dn = false)
    (hd2 : dictMissing s.dictionaries dn2 = false)
    (hn0 : n0 = match memRecord s tn k with
      | some r => r.version
      | none => 0) :
    (write s now tn k v e dn false).1 = .ok false ∧
    (write s now tn k v e dn false).2.disk = s.disk ∧
    (∃ r, memRecord (write s now tn k v e dn false).2 tn k = some r ∧
      r.version = n0 + 1) ∧
    (write (write s now tn k v e dn false).2 now2 tn k v2 e2 dn2
      true).1 = .ok true ∧
    (∃ r2, memRecord (write (write s now tn k v e dn false).2 now2 tn k
        v2 e2 dn2 true).2 tn k = some r2 ∧ r2.version = n0 + 2) := by
  obtain ⟨h1, h2, h3, h4⟩ := write_effect s now tn k v e dn false
    hv hk hd
  have hver1 : (writtenRecord s now tn k v e dn).version = n0 + 1 := by
    unfold writtenRecord
    rw [hn0]
  obtain ⟨g1, g2, g3, -⟩ := write_effect
    (write s now tn k v e dn false).2 now2 tn k v2 e2 dn2 true
    hv hk (by rw [h2]; exact hd2)
  have hver2 : (writtenRecord (write s now tn k v e dn false).2 now2 tn k
      v2 e2 dn2).version = n0 + 2 := by
    unfold writtenRecord
    rw [h3]
    simp [hver1]
  exact ⟨h1, h4 rfl, ⟨_, h3, hver1⟩, g1, ⟨_, g3, hver2⟩⟩

/-! ## Claim C6 — serialization shape -/

/-- C6: serialization produces a JSON array of two-element
`[key, compactRecord]` pairs; each record's metadata is unconditionally
renamed to the fixed short field names (`d` value, `v` version, `t`
timestamp, `x` expiration, and — only when the record carries one — `n`
dictionary name), independently of any user dictionary; a record
carrying a registered dictionary name additionally has its value
payload passed through the dictionary's deflate mapping before
embedding. -/
theorem C6_serialization_shape
    (dicts : List (String × ProcessedDictionary)) (table : Table) :
    serializeTable dicts table =
      .arr (table.map (fun p =>
        .arr [.str p.1, compactRecord dicts p.2])) ∧
    (∀ r : DatabaseRecord, r.dictionaryName = none →
      compactRecord dicts r =
        .obj [("d", r.value), ("v", .num r.version),
              ("t", .num r.timestamp),
              ("x", encodeExpiration r.expiration)]) ∧
    (∀ (r : DatabaseRecord) (n : String) (D : ProcessedDictionary),
      r.dictionaryName = some n → n ≠ "" → assocLookup dicts n = some D →
      compactRecord dicts r =
        .obj [("d", transformValue D.deflate r.value),
              ("v", .num r.version), ("t", .num r.timestamp),
              ("x", encodeExpiration r.expiration), ("n", .str n)]) := by
  refine ⟨rfl, ?_, ?_⟩
  · intro r h
    simp [compactRecord, h]
  · intro r n D h hn hD
    simp [compactRecord, h, hn, hD]

/-- Concrete instance of `C6_serialization_shape`: a record carrying
the registered `sensors` dictionary is embedded with short metadata
names and a deflated payload. -/
theorem C6_serialization_witness :
    ({ value := .obj [("sensor", .str "DHT22")], version := 1,
       timestamp := 5, expiration := none,
       dictionaryName := some "sensors" } :
      DatabaseRecord).dictionaryName = some "sensors" ∧
    compactRecord [("sensors", ⟨[("sensor", "s")], [("s", "sensor")]⟩)]
        { value := .obj [("sensor", .str "DHT22")], version := 1,
          timestamp := 5, expiration := none,
          dictionaryName := some "sensors" } =
      .obj [("d", transformValue [("sensor", "s")]
              (.obj [("sensor", .str "DHT22")])),
            ("v", .num 1), ("t", .num 5), ("x", .null),
            ("n", .str "sensors")] :=
  ⟨rfl, (C6_serialization_shape
      [("sensors", ⟨[("sensor", "s")], [("s", "sensor")]⟩)] []).2.2
    _ "sensors" _ rfl (by decide) rfl⟩

/-! ## Concrete witnesses for the stateful claims -/

/-- Concrete instance of `C2_version_monotonicity`: two writes from an
empty database give version 2, and a write straight after a delete
gives version 1. -/
theorem C2_version_witness :
    validTableName "t" = true ∧ validKey "k" = true ∧
    (∃ r, memRecord (writeSeq ⟨[], [], []⟩ "t" "k"
        [⟨1, .num 1, none, none⟩, ⟨2, .num 2, none, none⟩]) "t" "k" =
      some r ∧ r.version = 2) ∧
    (∃ r, memRecord (write (deleteKey ⟨[], [], []⟩ 0 "t" "k" true).2
        3 "t" "k" (.num 3) none none true).2 "t" "k" = some r ∧
      r.version = 1) := by
  refine ⟨by decide, by decide, ?_, ?_⟩
  · exact (C2_version_monotonicity "t" "k" (by decide) (by decide)).1
      ⟨[], [], []⟩ [⟨1, .num 1, none, none⟩, ⟨2, .num 2, none, none⟩]
      (by simp) rfl
      (by intro a ha; simp only [List.mem_cons, List.mem_singleton] at ha
          rcases ha with h | h | h <;> first | subst h; rfl | cases h)
  · exact (C2_version_monotonicity "t" "k" (by decide) (by decide)).2
      ⟨[], [], []⟩ 0 true ⟨3, .num 3, none, none⟩ true rfl

/-- Concrete instance of `C3_expiration_boundary`: a record expiring at
T = 100 is still served at exactly 100 and evicted at 101. -/
theorem C3_expiration_witness :
    ((100 : Int) ≤ 100 ∧
      getKey ⟨[("t", [("k", ⟨.num 7, 1, 0, some 100, none⟩)])], [], []⟩
          100 "t" "k" true =
        (.ok (some (.num 7)),
          ⟨[("t", [("k", ⟨.num 7, 1, 0, some 100, none⟩)])], [], []⟩)) ∧
    ((100 : Int) < 101 ∧
      (getKey ⟨[("t", [("k", ⟨.num 7, 1, 0, some 100, none⟩)])], [], []⟩
          101 "t" "k" true).1 = .ok none) := by
  constructor
  · exact ⟨le_refl _,
      (C3_expiration_boundary
        ⟨[("t", [("k", ⟨.num 7, 1, 0, some 100, none⟩)])], [], []⟩
        100 100 "t" "k" [("k", ⟨.num 7, 1, 0, some 100, none⟩)]
        ⟨.num 7, 1, 0, some 100, none⟩ true (by decide)
        (by decide) rfl rfl rfl).1 (le_refl _)⟩
  · exact ⟨by decide,
      ((C3_expiration_boundary
        ⟨[("t", [("k", ⟨.num 7, 1, 0, some 100, none⟩)])], [], []⟩
        101 100 "t" "k" [("k", ⟨.num 7, 1, 0, some 100, none⟩)]
        ⟨.num 7, 1, 0, some 100, none⟩ true (by decide)
        (by decide) rfl rfl rfl).2 (by decide)).1⟩

/-- Concrete instance of `C8_delete_semantics`: deleting a record that
expired at T = 100 at time 200 answers `false` yet purges the entry. -/
theorem C8_delete_witness :
    isExpired 200 (⟨.num 7, 1, 0, some 100, none⟩ : DatabaseRecord) =
      true ∧
    (deleteKey ⟨[("t", [("k", ⟨.num 7, 1, 0, some 100, none⟩)])], [], []⟩
        200 "t" "k" true).1 = .ok false ∧
    memRecord (deleteKey
        ⟨[("t", [("k", ⟨.num 7, 1, 0, some 100, none⟩)])], [], []⟩
        200 "t" "k" true).2 "t" "k" = none := by
  have H := (C8_delete_semantics
    ⟨[("t", [("k", ⟨.num 7, 1, 0, some 100, none⟩)])], [], []⟩
    200 "t" "k" [("k", ⟨.num 7, 1, 0, some 100, none⟩)]
    ⟨.num 7, 1, 0, some 100, none⟩ (by decide) (by decide) rfl rfl).1
    (by decide)
  exact ⟨by decide, H.1, H.2.1⟩

/-- Concrete instance of `C9_zero_expiration` on an empty database. -/
theorem C9_zero_expiration_witness :
    validTableName "t" = true ∧
    (∃ r, memRecord (write ⟨[], [], []⟩ 0 "t" "k" (.num 1) (some 0) none
        true).2 "t" "k" = some r ∧
      r.expiration = none ∧ r.value = .num 1 ∧
      (∀ now2, isExpired now2 r = false) ∧
      (∀ now2 pk2,
        getKey (write ⟨[], [], []⟩ 0 "t" "k" (.num 1) (some 0) none
            true).2 now2 "t" "k" pk2 =
          (.ok (some (.num 1)),
            (write ⟨[], [], []⟩ 0 "t" "k" (.num 1) (some 0) none
              true).2))) :=
  ⟨by decide,
    C9_zero_expiration ⟨[], [], []⟩ 0 "t" "k" (.num 1) true (by decide)
      (by decide)⟩

/-- Concrete instance of `C10_persist_failure` on an empty database. -/
theorem C10_persist_failure_witness :
    validKey "k" = true ∧
    ((write ⟨[], [], []⟩ 0 "t" "k" (.num 1) none none false).1 =
      .ok false ∧
    (write ⟨[], [], []⟩ 0 "t" "k" (.num 1) none none false).2.disk =
      [] ∧
    (∃ r, memRecord (write ⟨[], [], []⟩ 0 "t" "k" (.num 1) none none
        false).2 "t" "k" = some r ∧ r.version = 0 + 1) ∧
    (write (write ⟨[], [], []⟩ 0 "t" "k" (.num 1) none none false).2
        1 "t" "k" (.num 2) none none true).1 = .ok true ∧
    (∃ r2, memRecord (write (write ⟨[], [], []⟩ 0 "t" "k" (.num 1) none
        none false).2 1 "t" "k" (.num 2) none none true).2 "t" "k" =
      some r2 ∧ r2.version = 0 + 2)) :=
  ⟨by decide,
    C10_persist_failure ⟨[], [], []⟩ 0 1 "t" "k" (.num 1) (.num 2)
      none none none none 0 (by decide) (by decide) rfl rfl rfl⟩

end Piko
